import Mathlib

/-!
Verification of the chunked transcription / map-reduce summarization pipeline
(`src/transcribe_audio.py`, `src/summarize_text.py`).

Timestamps (Python floats used only for exact additions, `min`, and
comparisons) are modelled as rationals.  Python dicts for transcription
results are modelled as structures; falliable calls to the external
speech/LLM services are modelled as `Except` values passed in as arguments.
-/

/-- A word-level timestamp entry: models the dicts stored under a segment's
`words` key in `transcribe_audio.py`. -/
structure TWord where
  word : String
  start : ℚ
  stop : ℚ
  deriving DecidableEq, Repr

/-- One transcription segment dict: `{text, start, end, words?}`.
`words := none` models a dict without a `'words'` key. -/
structure TSeg where
  text : String
  start : ℚ
  stop : ℚ
  words : Option (List TWord)
  deriving DecidableEq, Repr

/-- A per-chunk transcription result dict `{'segments': ..., 'language': ...}`. -/
structure TResult where
  segments : List TSeg
  language : String
  deriving DecidableEq, Repr

/-- Python `str.strip()` on a code-point list, with whitespace per
`Char.isWhitespace` (space, tab, CR, LF — the ASCII common case of
Python's whitespace class). -/
def pyStrip (l : List Char) : List Char :=
  ((l.dropWhile Char.isWhitespace).reverse.dropWhile Char.isWhitespace).reverse

/-- Shift one word timestamp by an offset
(`word['start'] += chunk_start; word['end'] += chunk_start`,
`transcribe_audio.py` lines 216-217 and 262-263). -/
def shiftWord (off : ℚ) (w : TWord) : TWord :=
  { w with start := w.start + off, stop := w.stop + off }

/-- Shift one segment (and its word timestamps, when the `words` key exists)
by an offset (`transcribe_audio.py` lines 209-217 and 257-263). -/
def shiftSeg (off : ℚ) (s : TSeg) : TSeg :=
  { s with
    start := s.start + off
    stop := s.stop + off
    words := s.words.map (List.map (shiftWord off)) }

/-- Python `language or 'unknown'` (`transcribe_audio.py` line 268):
`None` and the empty string are falsy. -/
def pyOr (language : Option String) : String :=
  match language with
  | none => "unknown"
  | some l => if l = "" then "unknown" else l

/-- The word filter applied on the alignment-failure path
(`transcribe_audio.py` lines 251-254): keep words with non-empty stripped
text, `start >= 0` and `end > start`. -/
def validWord (w : TWord) : Bool :=
  !(pyStrip w.word.data).isEmpty && decide (0 ≤ w.start) && decide (w.start < w.stop)

/-- On alignment failure, segments that have a `words` key keep only the
valid words (`transcribe_audio.py` lines 248-254). -/
def dropInvalidWords (s : TSeg) : TSeg :=
  { s with words := s.words.map (fun ws => ws.filter validWord) }

/-- Shallow embedding of `transcribe_chunk` (`transcribe_audio.py` lines
171-268).  `transcribeResult` is the outcome of
`model.transcribe(chunk_audio, ...)` (an exception anywhere in the guarded
block, including `whisperx.load_audio`, is modelled as `Except.error`);
`alignResult` is the outcome of `whisperx.align` on the given valid
segments, returning `none` for an aligned dict lacking a `'segments'` key;
`hasAlignModel` models `align_model and align_metadata` being truthy. -/
def transcribe_chunk (transcribeResult : Except String TResult)
    (alignResult : List TSeg → Except String (Option (List TSeg)))
    (chunk_start : ℚ) (language : Option String) (hasAlignModel : Bool) :
    TResult :=
  match transcribeResult with
  | Except.error _ => { segments := [], language := pyOr language }
  | Except.ok result0 =>
    let result1 : TResult :=
      { result0 with segments := result0.segments.map (shiftSeg chunk_start) }
    if hasAlignModel then
      let valid_segments := result1.segments.filter (fun s => !(pyStrip s.text.data).isEmpty)
      let segs2 : List TSeg :=
        if valid_segments.isEmpty then
          result1.segments
        else
          match alignResult valid_segments with
          | Except.ok maybeAligned => maybeAligned.getD valid_segments
          | Except.error _ => result1.segments.map dropInvalidWords
      { result1 with segments := segs2.map (shiftSeg chunk_start) }
    else
      result1

/-- The sort key of `all_segments.sort(key=lambda x: x.get('start', 0))`
(`transcribe_audio.py` line 295), as a Boolean preorder for a stable merge
sort (Python's `list.sort` is stable). -/
def segLE (a b : TSeg) : Bool := decide (a.start ≤ b.start)

/-- Shallow embedding of `merge_transcription_results`
(`transcribe_audio.py` lines 271-298). -/
def merge_transcription_results (results : List TResult) : TResult :=
  match results with
  | [] => { segments := [], language := "unknown" }
  | r0 :: _ =>
    let all_segments := (results.map TResult.segments).flatten
    { segments := all_segments.mergeSort segLE, language := r0.language }

/-- The `while start_time < duration` loop of `split_audio_file`
(`transcribe_audio.py` lines 139-166), with an explicit fuel parameter;
the `ffmpeg` side effect is dropped, keeping the `(start, end)` span. -/
def splitAudioLoop (D C : ℚ) : Nat → ℚ → List (ℚ × ℚ)
  | 0, _ => []
  | fuel + 1, start_time =>
    if start_time < D then
      (start_time, min (start_time + C) D) ::
        splitAudioLoop D C fuel (min (start_time + C) D)
    else []

/-- Shallow embedding of `split_audio_file` (`transcribe_audio.py` lines
102-168) on the success path (`ffmpeg`/`ffprobe` available):
zero or too-short duration returns the whole file as one span, otherwise the
splitting loop runs.  `fuel` bounds the loop; any `fuel ≥ ⌈D/C⌉` is enough. -/
def split_audio_file (D C : ℚ) (fuel : Nat) : List (ℚ × ℚ) :=
  if D = 0 then [(0, D)]
  else if D ≤ C then [(0, D)]
  else splitAudioLoop D C fuel 0

/-- The chunking decision of `transcribe_audio` (line 407:
`audio_duration > chunk_duration * 1.5`) composed with `split_audio_file`:
the spans actually transcribed.  When chunking is not taken the whole file
is transcribed as the single span `[0, D)`. -/
def chunkSpans (D C : ℚ) (fuel : Nat) : List (ℚ × ℚ) :=
  if D ≤ C * (3 / 2) then [(0, D)]
  else split_audio_file D C fuel

/-- Collection of per-chunk results in `transcribe_audio` (lines 489-507):
`results.append(future.result())` in `as_completed` (completion) order.
`completions` is the completion-ordered list of `(submission index, result)`
pairs. -/
def collectByCompletion (completions : List (Nat × TResult)) : List TResult :=
  completions.map Prod.snd

/-- Lookup in `results_dict` (`summarize_text.py` lines 220-233): repeated
assignment to the same key keeps the last value. -/
def dictGet (completions : List (Nat × String)) (i : Nat) : Option String :=
  ((completions.filter (fun p => p.1 == i)).getLast?).map Prod.snd

/-- Reassembly `[results_dict[i] for i in range(1, total_chunks + 1) if i in
results_dict]` (`summarize_text.py` line 236). -/
def assembleByIndex (total : Nat) (completions : List (Nat × String)) :
    List String :=
  (List.range' 1 total).filterMap (dictGet completions)

/-- Python `text[i:i+len(sep)] == sep` on code points. -/
def sliceMatches (text sep : List Char) (i : Nat) : Bool :=
  ((text.drop i).take sep.length) == sep

/-- Python `text.rfind(sep, start, fin)` (returning `none` for `-1`):
the largest `i` with `start ≤ i`, `i + sep.length ≤ fin` and a match at `i`. -/
def listRfind (text sep : List Char) (start fin : Nat) : Option Nat :=
  ((List.range' start (fin - start)).filter
    (fun i => decide (i + sep.length ≤ fin) && sliceMatches text sep i)).getLast?

/-- The separator preference list of `split_text_into_chunks`
(`summarize_text.py` line 56). -/
def separators : List (List Char) :=
  [String.toList "。\n", String.toList "。 ", String.toList "\n\n",
   String.toList "。", String.toList "！", String.toList "？",
   String.toList "\n"]

/-- The backward separator search (`summarize_text.py` lines 54-60): the
first separator in preference order that occurs in `[start, e)` moves the
cut to just after its last occurrence; otherwise the cut stays at `e`. -/
def findBreak (text : List Char) (start e : Nat) : Nat :=
  match separators.findSome?
      (fun sep => (listRfind text sep start e).map (fun i => i + sep.length)) with
  | some e' => e'
  | none => e

/-- The advance `start = max(end - chunk_overlap, start + 1)`
(`summarize_text.py` line 68).  Natural subtraction truncates at `0`, which
agrees with Python since `max` discards any negative first argument. -/
def nextStart (e overlap start : Nat) : Nat :=
  max (e - overlap) (start + 1)

/-- The end position of the current chunk (`summarize_text.py` lines
50-60): `end = min(start + chunk_size, text_length)`, moved back to a
separator boundary when this is not the final chunk. -/
def chunkEnd (text : List Char) (chunk_size start : Nat) : Nat :=
  if min (start + chunk_size) text.length < text.length then
    findBreak text start (min (start + chunk_size) text.length)
  else min (start + chunk_size) text.length

/-- The `while start < text_length` loop of `split_text_into_chunks`
(`summarize_text.py` lines 49-68), with an explicit fuel parameter:
extract `text[start:end]`, strip it, keep it when non-empty, advance. -/
def splitLoop (text : List Char) (chunk_size overlap : Nat) :
    Nat → Nat → List (List Char)
  | 0, _ => []
  | fuel + 1, start =>
    if start < text.length then
      if (pyStrip ((text.drop start).take (chunkEnd text chunk_size start - start))).isEmpty then
        splitLoop text chunk_size overlap fuel
          (nextStart (chunkEnd text chunk_size start) overlap start)
      else
        pyStrip ((text.drop start).take (chunkEnd text chunk_size start - start)) ::
          splitLoop text chunk_size overlap fuel
            (nextStart (chunkEnd text chunk_size start) overlap start)
    else []

/-- Shallow embedding of `split_text_into_chunks` (`summarize_text.py`
lines 21-70).  Fuel `text.length` suffices because `start` strictly
increases on every iteration (proved in `splitLoop_fuel_mono`). -/
def split_text_into_chunks (text : List Char) (chunk_size overlap : Nat) :
    List (List Char) :=
  if text.isEmpty then [] else splitLoop text chunk_size overlap text.length 0

/-- Shallow embedding of `summarize_chunk` (`summarize_text.py` lines
73-121): the outcome of the single `chat_completion_simple` call is the
argument; any exception becomes the placeholder string. -/
def summarize_chunk (callResult : Except String String) : String :=
  match callResult with
  | Except.ok s => s
  | Except.error e => "[總結失敗: " ++ e ++ "]"

/-- The per-chunk summaries in submission order (`summarize_text.py` lines
199-255; the concurrent path reassembles into this same order via
`results_dict`, see `assembleByIndex`).  `chunkCall i` is the outcome of the
language-model call for chunk `i` (1-based). -/
def chunkSummaries (chunkCall : Nat → Except String String) (n : Nat) :
    List String :=
  (List.range n).map (fun i => summarize_chunk (chunkCall (i + 1)))

/-- `combined_summaries` (`summarize_text.py` lines 262-265). -/
def combineSummaries (summaries : List String) : String :=
  String.intercalate "\n\n"
    (summaries.enum.map
      (fun p => "第 " ++ toString (p.1 + 1) ++ " 塊總結：\n" ++ p.2))

/-- Shallow embedding of `summarize_text` (`summarize_text.py` lines
124-301): `Except.error` models a raised exception.  `reduceCall` is the
outcome of the final reduction call as a function of the combined prompt
document. -/
def summarize_text (chunkCall : Nat → Except String String)
    (reduceCall : String → Except String String)
    (text : List Char) (chunk_size overlap : Nat) : Except String String :=
  if (pyStrip text).isEmpty then Except.error "文本不能為空"
  else
    let chunks := split_text_into_chunks text chunk_size overlap
    if chunks.isEmpty then Except.error "文本分塊失敗，未生成任何塊"
    else if chunks.length = 1 then Except.ok (summarize_chunk (chunkCall 1))
    else
      match reduceCall (combineSummaries (chunkSummaries chunkCall chunks.length)) with
      | Except.ok s => Except.ok s
      | Except.error e => Except.error ("生成最終總結時發生錯誤: " ++ e)

/-- C10: merging an empty list of per-chunk results yields an empty segment
list and language `"unknown"` (`transcribe_audio.py` lines 281-282). -/
theorem merge_transcription_results_nil :
    merge_transcription_results [] = { segments := [], language := "unknown" } :=
  rfl

/-- C4, counterexample: with a first result of language `"unknown"` and a
second of language `"en"`, the merged language is not `"en"` (the first
non-`"unknown"` language), refuting the claim as stated. -/
theorem merge_language_counterexample :
    (merge_transcription_results
      [{ segments := [], language := "unknown" },
       { segments := [], language := "en" }]).language ≠ "en" := by
  decide

/-- C4, amended: the merged language is the language of the *first* result,
whatever it is — `"unknown"` is not skipped (`transcribe_audio.py` line 286). -/
theorem merge_language_eq_head (r : TResult) (rs : List TResult) :
    (merge_transcription_results (r :: rs)).language = r.language :=
  rfl

/-- C6, counterexample: when the transcription of a chunk raises and a
language hint `"en"` was supplied, the fallback result's language is `"en"`,
not `"unknown"`, refuting the claim as stated. -/
theorem transcribe_chunk_failure_language_counterexample :
    (transcribe_chunk (Except.error "boom") (fun _ => Except.ok none) 0
      (some "en") false).language ≠ "unknown" := by
  decide

/-- C6, amended: an exception while transcribing a chunk is absorbed:
`transcribe_chunk` returns an empty segment list with language
`language or 'unknown'` — the supplied hint when it is a non-empty string,
`"unknown"` when the hint is `None` or empty (`transcribe_audio.py` lines
266-268). -/
theorem transcribe_chunk_absorbs_failure (err : String)
    (alignResult : List TSeg → Except String (Option (List TSeg)))
    (chunk_start : ℚ) (language : Option String) (hasAlignModel : Bool) :
    transcribe_chunk (Except.error err) alignResult chunk_start language
      hasAlignModel = { segments := [], language := pyOr language } ∧
    pyOr none = "unknown" ∧
    (∀ l : String, pyOr (some l) = if l = "" then "unknown" else l) :=
  ⟨rfl, rfl, fun _ => rfl⟩

/-- C1: on the path where an align model is loaded but alignment is skipped
because no segment has non-empty text, the absolute-offset shift is applied
twice: a segment with local times `[0, 1]` in a chunk starting at `10` comes
back with times `[20, 21]` instead of `[10, 11]`, for every possible
behaviour of the alignment call (which is never reached). -/
theorem transcribe_chunk_double_shift_on_skipped_alignment
    (alignResult : List TSeg → Except String (Option (List TSeg))) :
    (transcribe_chunk
      (Except.ok { segments := [{ text := "", start := 0, stop := 1, words := none }],
                   language := "en" })
      alignResult 10 (some "en") true).segments
      = [{ text := "", start := 20, stop := 21, words := none }] := by
  simp [transcribe_chunk, shiftSeg, pyStrip]
  norm_num

/-- C3, counterexample: `transcribe_audio` appends chunk results in
completion order (`results.append(future.result())`), so a completion order
that reverses the submission order hands the merger the reversed list, not
the submission-ordered one. -/
theorem collectByCompletion_counterexample :
    collectByCompletion
      [(1, { segments := [], language := "en" }),
       (0, { segments := [], language := "unknown" })]
      ≠ [{ segments := [], language := "unknown" },
         { segments := [], language := "en" }] := by
  decide

/-- Helper for C3: in the index-tagged submission list, filtering on one
index picks exactly that submission's pair. -/
theorem zip_range'_filter_eq (l : List String) :
    ∀ (s k : Nat), s ≤ k → k < s + l.length →
    ((List.range' s l.length).zip l).filter (fun p => p.1 == k)
      = [(k, l.getD (k - s) "")] := by
  induction l with
  | nil => intro s k h1 h2; simp at h2; omega
  | cons a t ih =>
    intro s k h1 h2
    rw [List.length_cons, List.range'_succ, List.zip_cons_cons, List.filter_cons]
    by_cases hk : s = k
    · subst hk
      simp only [beq_self_eq_true]
      have htail : ((List.range' (s + 1) t.length).zip t).filter
          (fun p => p.1 == s) = [] := by
        rw [List.filter_eq_nil_iff]
        intro p hp
        have hmem := (List.of_mem_zip hp).1
        rw [List.mem_range'] at hmem
        obtain ⟨i, hi, hpi⟩ := hmem
        simp only [beq_iff_eq]
        omega
      rw [htail]
      simp
    · have hne : ((s, a).1 == k) = false := by
        simp only [beq_eq_false_iff_ne, ne_eq]
        omega
      rw [hne]
      simp only [Bool.false_eq_true, if_false]
      have hk1 : s + 1 ≤ k := by omega
      have h2' : k < s + 1 + t.length := by
        simp only [List.length_cons] at h2
        omega
      rw [ih (s + 1) k hk1 h2']
      have hidx : k - s = (k - (s + 1)) + 1 := by omega
      rw [hidx, List.getD_cons_succ]

/-- Helper for C3: reading the submissions back by index recovers the list. -/
theorem filterMap_getD_range' (l : List String) :
    ∀ s : Nat,
      (List.range' s l.length).filterMap (fun i => some (l.getD (i - s) "")) = l := by
  induction l with
  | nil => intro s; simp
  | cons a t ih =>
    intro s
    rw [List.length_cons, List.range'_succ, List.filterMap_cons]
    simp only [Nat.sub_self, List.getD_cons_zero]
    have hcongr : ∀ i ∈ List.range' (s + 1) t.length,
        (some ((a :: t).getD (i - s) "") : Option String)
          = some (t.getD (i - (s + 1)) "") := by
      intro i hi
      rw [List.mem_range'] at hi
      obtain ⟨j, hj, hij⟩ := hi
      have hidx : i - s = (i - (s + 1)) + 1 := by omega
      rw [hidx, List.getD_cons_succ]
    rw [List.filterMap_congr hcongr, ih (s + 1)]

/-- C3, amended: in `summarize_text`, whatever the completion order (any
permutation of the index-tagged submissions), the `results_dict` reassembly
hands the reducer the per-chunk results in original submission order, keyed
by the original chunk index.  In `transcribe_audio`, by contrast, results
are handed to the merger in completion order (see
`collectByCompletion_counterexample`); chronological order is only restored
by the merger's sort by `start`. -/
theorem assembleByIndex_recovers_submission_order
    (subs : List String) (completions : List (Nat × String))
    (hperm : completions.Perm ((List.range' 1 subs.length).zip subs)) :
    assembleByIndex subs.length completions = subs := by
  unfold assembleByIndex
  have hlookup : ∀ i ∈ List.range' 1 subs.length,
      dictGet completions i = some (subs.getD (i - 1) "") := by
    intro i hi
    rw [List.mem_range'] at hi
    obtain ⟨j, hj, hij⟩ := hi
    unfold dictGet
    have hf := hperm.filter (fun p => p.1 == i)
    rw [zip_range'_filter_eq subs 1 i (by omega) (by omega)] at hf
    rw [List.perm_singleton.mp hf]
    simp
  rw [List.filterMap_congr hlookup, filterMap_getD_range' subs 1]

/-- Witness for C3's amended theorem at a concrete reversed completion
order. -/
theorem assembleByIndex_witness :
    ([(2, "b"), (1, "a")] : List (Nat × String)).Perm
      ((List.range' 1 (["a", "b"] : List String).length).zip ["a", "b"]) ∧
    assembleByIndex (["a", "b"] : List String).length [(2, "b"), (1, "a")]
      = ["a", "b"] :=
  ⟨by decide,
   assembleByIndex_recovers_submission_order ["a", "b"] [(2, "b"), (1, "a")]
     (by decide)⟩

/-- Helper: once `start` has reached the end of the text the loop stops,
whatever fuel remains. -/
theorem splitLoop_halts (text : List Char) (cs ov fuel start : Nat)
    (h : text.length ≤ start) : splitLoop text cs ov fuel start = [] := by
  cases fuel with
  | zero => rfl
  | succ f =>
    rw [splitLoop]
    rw [if_neg (by omega)]

/-- Helper: every chunk kept by the loop is non-empty (a stripped chunk
that is empty - pure whitespace before stripping - is dropped). -/
theorem splitLoop_mem_ne_nil (text : List Char) (cs ov : Nat) :
    ∀ (fuel start : Nat) (ch : List Char),
      ch ∈ splitLoop text cs ov fuel start → ch ≠ [] := by
  intro fuel
  induction fuel with
  | zero => intro start ch h; simp [splitLoop] at h
  | succ f ih =>
    intro start ch h
    rw [splitLoop] at h
    split at h
    · split at h
      · exact ih _ ch h
      · next hempty =>
          rcases List.mem_cons.mp h with rfl | h'
          · intro hnil
            rw [hnil] at hempty
            simp at hempty
          · exact ih _ ch h'
    · simp at h

/-- Helper: any fuel of at least `text.length - start` (the maximal number
of remaining iterations, since `start` strictly increases) gives the same
result, i.e. the loop has converged. -/
theorem splitLoop_fuel_mono (text : List Char) (cs ov : Nat) :
    ∀ (f g start : Nat), text.length - start ≤ f → f ≤ g →
      splitLoop text cs ov f start = splitLoop text cs ov g start := by
  intro f
  induction f with
  | zero =>
    intro g start h1 _
    rw [splitLoop_halts text cs ov 0 start (by omega),
        splitLoop_halts text cs ov g start (by omega)]
  | succ f ih =>
    intro g start h1 h2
    cases g with
    | zero => omega
    | succ g' =>
      by_cases hs : start < text.length
      · have hadv : start + 1 ≤ nextStart (chunkEnd text cs start) ov start :=
          Nat.le_max_right _ _
        have hrest := ih g' (nextStart (chunkEnd text cs start) ov start)
          (by omega) (by omega)
        rw [splitLoop, splitLoop, if_pos hs, if_pos hs, hrest]
      · rw [splitLoop_halts text cs ov (f + 1) start (by omega),
            splitLoop_halts text cs ov (g' + 1) start (by omega)]

/-- C7, counterexample: the one-character text `" "` yields zero chunks,
not exactly one — the single chunk strips to pure whitespace and is
dropped — refuting the one-character part of the claim as stated. -/
theorem split_text_one_space_counterexample :
    (split_text_into_chunks [' '] 100000 300).length ≠ 1 := by
  decide

/-- C7, amended: `split_text("", 100000, 300)` is `[]`; a one-character
text yields exactly one chunk when its character is not whitespace, and
zero chunks when it is (the pure-whitespace chunk is dropped); in general
every returned chunk is non-empty after stripping. -/
theorem split_text_boundary :
    split_text_into_chunks [] 100000 300 = [] ∧
    (∀ c : Char, c.isWhitespace = false →
      split_text_into_chunks [c] 100000 300 = [[c]]) ∧
    (∀ c : Char, c.isWhitespace = true →
      split_text_into_chunks [c] 100000 300 = []) ∧
    (∀ (text : List Char) (cs ov : Nat) (ch : List Char),
      ch ∈ split_text_into_chunks text cs ov → ch ≠ []) := by
  refine ⟨rfl, ?_, ?_, ?_⟩
  · intro c h
    simp [split_text_into_chunks, splitLoop, chunkEnd, pyStrip, nextStart, h, findBreak]
  · intro c h
    simp [split_text_into_chunks, splitLoop, chunkEnd, pyStrip, nextStart, h, findBreak]
  · intro text cs ov ch hmem
    unfold split_text_into_chunks at hmem
    split at hmem
    · simp at hmem
    · exact splitLoop_mem_ne_nil text cs ov text.length 0 ch hmem

/-- Witness for C7's amended theorem at the concrete characters `'a'` and
`' '`. -/
theorem split_text_boundary_witness :
    (' ' : Char).isWhitespace = true ∧ ('a' : Char).isWhitespace = false ∧
    split_text_into_chunks ['a'] 100000 300 = [['a']] ∧
    split_text_into_chunks [' '] 100000 300 = [] :=
  ⟨by decide, by decide, split_text_boundary.2.1 'a' (by decide),
   split_text_boundary.2.2.1 ' ' (by decide)⟩

/-- C8: each iteration moves the next start to
`max(end - overlap, start + 1)`, which strictly increases `start`, so the
text-chunking loop terminates on every input — formally, the loop's value
is already stable for any fuel of at least `text.length - start` remaining
iterations, for every text, chunk size and overlap (including
`overlap >= chunk_size`). -/
theorem split_text_progress_and_termination :
    (∀ e ov start : Nat, start < nextStart e ov start) ∧
    (∀ (text : List Char) (cs ov fuel fuel' start : Nat),
      text.length - start ≤ fuel → text.length - start ≤ fuel' →
      splitLoop text cs ov fuel start = splitLoop text cs ov fuel' start) := by
  constructor
  · intro e ov start
    have := Nat.le_max_right (e - ov) (start + 1)
    unfold nextStart
    omega
  · intro text cs ov fuel fuel' start h1 h2
    rw [splitLoop_fuel_mono text cs ov fuel (max fuel fuel') start h1 (Nat.le_max_left _ _),
        splitLoop_fuel_mono text cs ov fuel' (max fuel fuel') start h2 (Nat.le_max_right _ _)]

/-- Witness for C8 at concrete fuels on a concrete text. -/
theorem split_text_progress_witness :
    (1 : Nat) - 0 ≤ 5 ∧ (1 : Nat) - 0 ≤ 7 ∧
    0 < nextStart 1 300 0 ∧
    splitLoop ['a'] 100000 300 5 0 = splitLoop ['a'] 100000 300 7 0 :=
  ⟨by decide, by decide, split_text_progress_and_termination.1 1 300 0,
   split_text_progress_and_termination.2 ['a'] 100000 300 5 7 0 (by decide) (by decide)⟩

/-- C9, counterexample: the placeholder contributed by a failed chunk call
is the Chinese string `"[總結失敗: <reason>]"` produced by the code, not the
literal `"[summary failed: <reason>]"` stated in the claim. -/
theorem summarize_chunk_placeholder_counterexample :
    summarize_chunk (Except.error "boom") ≠ "[summary failed: boom]" := by
  decide

/-- C9, amended: with non-empty text producing more than one chunk, a
failure of any single chunk's summarization call never makes
`summarize_text` raise — that chunk contributes the placeholder string
`"[總結失敗: <reason>]"` (the code's rendering of "summary failed") —
whereas the outcome of the final reduction call decides the outcome of
`summarize_text`: reduction success returns its summary, reduction failure
always raises to the caller with no further fallback. -/
theorem summarize_text_error_policy
    (chunkCall : Nat → Except String String)
    (reduceCall : String → Except String String)
    (text : List Char) (cs ov : Nat)
    (h1 : (pyStrip text).isEmpty = false)
    (h2 : 1 < (split_text_into_chunks text cs ov).length)
    (j : Nat) (e : String)
    (hj1 : 1 ≤ j) (hj2 : j ≤ (split_text_into_chunks text cs ov).length)
    (hfail : chunkCall j = Except.error e) :
    (chunkSummaries chunkCall (split_text_into_chunks text cs ov).length).getD (j - 1) ""
        = "[總結失敗: " ++ e ++ "]" ∧
    (∀ s, reduceCall (combineSummaries (chunkSummaries chunkCall
        (split_text_into_chunks text cs ov).length)) = Except.ok s →
      summarize_text chunkCall reduceCall text cs ov = Except.ok s) ∧
    (∀ e2, reduceCall (combineSummaries (chunkSummaries chunkCall
        (split_text_into_chunks text cs ov).length)) = Except.error e2 →
      summarize_text chunkCall reduceCall text cs ov
        = Except.error ("生成最終總結時發生錯誤: " ++ e2)) := by
  have hne : (split_text_into_chunks text cs ov).isEmpty = false := by
    cases hsp : split_text_into_chunks text cs ov with
    | nil => rw [hsp] at h2; simp at h2
    | cons a t => rfl
  refine ⟨?_, ?_, ?_⟩
  · unfold chunkSummaries
    have hjlt : j - 1 < (split_text_into_chunks text cs ov).length := by omega
    rw [List.getD_eq_getElem?_getD, List.getElem?_map, List.getElem?_range hjlt]
    have hj' : j - 1 + 1 = j := by omega
    simp only [Option.map_some', hj', hfail]
    rfl
  · intro s hok
    unfold summarize_text
    simp only [h1, hne, Bool.false_eq_true, if_false]
    rw [if_neg (by omega), hok]
  · intro e2 herr
    unfold summarize_text
    simp only [h1, hne, Bool.false_eq_true, if_false]
    rw [if_neg (by omega), herr]

/-- Witness for C9's amended theorem: the two-chunk text `"ab"` with chunk
size 1, chunk 1 failing and a succeeding reduction. -/
theorem summarize_text_error_policy_witness :
    (pyStrip ['a', 'b']).isEmpty = false ∧
    1 < (split_text_into_chunks ['a', 'b'] 1 0).length ∧
    (chunkSummaries (fun i => if i = 1 then Except.error "boom" else Except.ok "S2")
      (split_text_into_chunks ['a', 'b'] 1 0).length).getD 0 "" = "[總結失敗: boom]" ∧
    summarize_text (fun i => if i = 1 then Except.error "boom" else Except.ok "S2")
      (fun _ => Except.ok "FIN") ['a', 'b'] 1 0 = Except.ok "FIN" := by
  have T := summarize_text_error_policy
    (fun i => if i = 1 then Except.error "boom" else Except.ok "S2")
    (fun _ => Except.ok "FIN") ['a', 'b'] 1 0 (by decide) (by decide) 1 "boom"
    (by decide) (by decide) rfl
  exact ⟨by decide, by decide,
    (T.1).trans (by decide), T.2.1 "FIN" rfl⟩

/-- C5, counterexample: merging two results in reverse order does not yield
an identical Transcript — the merged language follows the first element of
the list handed in, so reversing `[unknown, en]` flips the language — 
refuting order-of-completion independence as stated. -/
theorem merge_reverse_counterexample :
    merge_transcription_results
        ([{ segments := [], language := "unknown" },
          { segments := [], language := "en" }] : List TResult).reverse
      ≠ merge_transcription_results
        [{ segments := [], language := "unknown" },
         { segments := [], language := "en" }] := by
  simp [merge_transcription_results]

/-- C5, amended: when all results report the same language and all segment
start times are pairwise distinct, merging the reversed result list yields
a Transcript identical to merging the forward list; and in all cases the
merged segment sequence is sorted by `start` (monotonic non-decreasing),
produced by a stable sort. -/
theorem merge_order_independence
    (results : List TResult)
    (hlang : ∀ r1 ∈ results, ∀ r2 ∈ results, r1.language = r2.language)
    (hdist : ((results.map TResult.segments).flatten).Pairwise
      (fun a b => a.start ≠ b.start)) :
    merge_transcription_results results.reverse = merge_transcription_results results ∧
    ((merge_transcription_results results).segments).Pairwise
      (fun a b => a.start ≤ b.start) := by
  have htrans : ∀ a b c : TSeg, segLE a b → segLE b c → segLE a c := by
    intro a b c hab hbc
    simp only [segLE, decide_eq_true_eq] at *
    exact le_trans hab hbc
  have htotal : ∀ a b : TSeg, segLE a b || segLE b a := by
    intro a b
    simp only [segLE, Bool.or_eq_true, decide_eq_true_eq]
    exact le_total a.start b.start
  have hsorted : ∀ l : List TSeg,
      (l.mergeSort segLE).Pairwise (fun a b => a.start ≤ b.start) := by
    intro l
    have := List.sorted_mergeSort htrans htotal l
    exact this.imp (by intro a b h; simpa [segLE] using h)
  refine ⟨?_, ?_⟩
  · cases results with
    | nil => rfl
    | cons r rs =>
      obtain ⟨a, t, hrev⟩ : ∃ a t, (r :: rs).reverse = a :: t := by
        cases hr : (r :: rs).reverse with
        | nil => simp at hr
        | cons a t => exact ⟨a, t, rfl⟩
      have hamem : a ∈ r :: rs := by
        rw [← List.mem_reverse, hrev]
        exact List.mem_cons_self a t
      have hlangeq : a.language = r.language :=
        hlang a hamem r (List.mem_cons_self r rs)
      have hperm : List.Perm (((r :: rs).reverse.map TResult.segments).flatten)
          (((r :: rs).map TResult.segments).flatten) := by
        have h1 : (r :: rs).reverse.map TResult.segments
            = ((r :: rs).map TResult.segments).reverse := by
          rw [List.map_reverse]
        rw [h1]
        exact (List.reverse_perm _).flatten
      have hpermSort :
          List.Perm ((((r :: rs).reverse.map TResult.segments).flatten).mergeSort segLE)
            ((((r :: rs).map TResult.segments).flatten).mergeSort segLE) :=
        ((List.mergeSort_perm _ _).trans hperm).trans
          (List.mergeSort_perm _ _).symm
      have hlt : ∀ l : List TSeg,
          List.Perm l (((r :: rs).map TResult.segments).flatten) →
          (l.mergeSort segLE).Pairwise (fun a b => a.start < b.start) := by
        intro l hl
        have hdl : (l.mergeSort segLE).Pairwise (fun a b => a.start ≠ b.start) :=
          (List.Perm.pairwise_iff (fun h => Ne.symm h)
            ((List.mergeSort_perm l segLE).trans hl)).mpr hdist
        exact ((hsorted l).and hdl).imp (fun h => lt_of_le_of_ne h.1 h.2)
      have hanti : IsAntisymm TSeg (fun a b => a.start < b.start) :=
        ⟨fun a b h1 h2 => absurd h1 (not_lt.mpr h2.le)⟩
      have hseq :
          ((((r :: rs).reverse.map TResult.segments).flatten).mergeSort segLE)
            = ((((r :: rs).map TResult.segments).flatten).mergeSort segLE) :=
        @List.eq_of_perm_of_sorted _ _ hanti _ _ hpermSort
          (hlt _ hperm) (hlt _ (List.Perm.refl _))
      rw [hrev]
      show ({ segments := (((a :: t).map TResult.segments).flatten).mergeSort segLE,
              language := a.language } : TResult)
          = { segments := (((r :: rs).map TResult.segments).flatten).mergeSort segLE,
              language := r.language }
      rw [← hrev, hseq, hlangeq]
  · cases results with
    | nil => exact List.Pairwise.nil
    | cons r rs => exact hsorted _


/-- Witness for C5's amended theorem at two concrete same-language results
with distinct starts. -/
theorem merge_order_independence_witness :
    (∀ r1 ∈ ([{ segments := [{ text := "x", start := 0, stop := 1, words := none }],
                language := "en" },
              { segments := [{ text := "y", start := 5, stop := 6, words := none }],
                language := "en" }] : List TResult),
      ∀ r2 ∈ ([{ segments := [{ text := "x", start := 0, stop := 1, words := none }],
                 language := "en" },
               { segments := [{ text := "y", start := 5, stop := 6, words := none }],
                 language := "en" }] : List TResult), r1.language = r2.language) ∧
    ((([{ segments := [{ text := "x", start := 0, stop := 1, words := none }],
          language := "en" },
        { segments := [{ text := "y", start := 5, stop := 6, words := none }],
          language := "en" }] : List TResult).map TResult.segments).flatten).Pairwise
      (fun a b => a.start ≠ b.start) ∧
    merge_transcription_results
        ([{ segments := [{ text := "x", start := 0, stop := 1, words := none }],
            language := "en" },
          { segments := [{ text := "y", start := 5, stop := 6, words := none }],
            language := "en" }] : List TResult).reverse
      = merge_transcription_results
        [{ segments := [{ text := "x", start := 0, stop := 1, words := none }],
           language := "en" },
         { segments := [{ text := "y", start := 5, stop := 6, words := none }],
           language := "en" }] := by
  refine ⟨?_, ?_, ?_⟩
  · decide
  · decide
  · exact (merge_order_independence _ (by decide) (by decide)).1

/-- Helper: the audio-splitting loop stops once `start_time` has reached
the duration, whatever fuel remains. -/
theorem splitAudioLoop_halts (D C : ℚ) (fuel : Nat) (start : ℚ)
    (h : ¬ start < D) : splitAudioLoop D C fuel start = [] := by
  cases fuel with
  | zero => rfl
  | succ f => rw [splitAudioLoop, if_neg h]

/-- Helper: closed form of the splitting loop.  From a start below the
duration and with fuel at least `n = ⌈(D - start) / C⌉`, the `i`-th emitted
span is `[start + iC, min(start + (i+1)C, D))`. -/
theorem splitAudioLoop_closed_form (D C : ℚ) (hC : 0 < C) :
    ∀ (n fuel : Nat) (start : ℚ), start < D →
      ⌈(D - start) / C⌉ = (n : ℤ) → n ≤ fuel →
      splitAudioLoop D C fuel start
        = (List.range n).map
            (fun i : ℕ => (start + (i : ℚ) * C, min (start + ((i : ℚ) + 1) * C) D)) := by
  intro n
  induction n with
  | zero =>
    intro fuel start hlt hceil _
    exfalso
    have hpos : 0 < (D - start) / C := div_pos (by linarith) hC
    have h1 := Int.ceil_pos.mpr hpos
    omega
  | succ m ih =>
    intro fuel start hlt hceil hfuel
    cases fuel with
    | zero => omega
    | succ f =>
      rw [splitAudioLoop, if_pos hlt]
      by_cases hm : m = 0
      · subst hm
        have h1 : (D - start) / C ≤ 1 := by
          have h2 : ⌈(D - start) / C⌉ ≤ (1 : ℤ) := by omega
          have h3 := Int.ceil_le.mp h2
          exact_mod_cast h3
        have hDle : D ≤ start + C := by
          have := (div_le_one hC).mp h1
          linarith
        have hmin : min (start + C) D = D := min_eq_right hDle
        rw [hmin, splitAudioLoop_halts D C f D (lt_irrefl D)]
        have hrange : List.range 1 = [0] := rfl
        rw [hrange, List.map_cons, List.map_nil]
        refine List.cons_eq_cons.mpr ⟨?_, rfl⟩
        refine Prod.ext ?_ ?_
        · show start = start + ((0 : ℕ) : ℚ) * C
          push_cast
          ring
        · show D = min (start + (((0 : ℕ) : ℚ) + 1) * C) D
          have : start + (((0 : ℕ) : ℚ) + 1) * C = start + C := by push_cast; ring
          rw [this, hmin]
      · have hm1 : 1 ≤ m := by omega
        have h2 : (1 : ℚ) < (D - start) / C := by
          have h3 : (1 : ℤ) < ⌈(D - start) / C⌉ := by omega
          exact_mod_cast Int.lt_ceil.mp h3
        have hClt : C < D - start := (one_lt_div hC).mp h2
        have hlt' : start + C < D := by linarith
        have hmin : min (start + C) D = start + C := min_eq_left (le_of_lt hlt')
        rw [hmin]
        have hdiv : (D - (start + C)) / C = (D - start) / C - 1 := by
          field_simp
          ring
        have hceil' : ⌈(D - (start + C)) / C⌉ = (m : ℤ) := by
          rw [hdiv, Int.ceil_sub_one, hceil]
          push_cast
          ring
        rw [ih f (start + C) hlt' hceil' (by omega)]
        rw [List.range_succ_eq_map, List.map_cons, List.map_map]
        refine List.cons_eq_cons.mpr ⟨?_, ?_⟩
        · refine Prod.ext ?_ ?_
          · show start = start + ((0 : ℕ) : ℚ) * C
            push_cast
            ring
          · show start + C = min (start + (((0 : ℕ) : ℚ) + 1) * C) D
            have h4 : start + (((0 : ℕ) : ℚ) + 1) * C = start + C := by push_cast; ring
            rw [h4, hmin]
        · refine List.map_congr_left ?_
          intro i _
          refine Prod.ext ?_ ?_
          · show start + C + (i : ℚ) * C = start + ((Nat.succ i : ℕ) : ℚ) * C
            push_cast
            ring
          · show min (start + C + ((i : ℚ) + 1) * C) D
                = min (start + (((Nat.succ i : ℕ) : ℚ) + 1) * C) D
            have h5 : start + C + ((i : ℚ) + 1) * C
                = start + (((Nat.succ i : ℕ) : ℚ) + 1) * C := by push_cast; ring
            rw [h5]

/-- Helper: for a non-integral rational the ceiling is the floor plus one. -/
theorem ceil_eq_floor_add_one_of_ne (x : ℚ) (h : x ≠ ((⌈x⌉ : ℤ) : ℚ)) :
    ⌈x⌉ = ⌊x⌋ + 1 := by
  have h1 : ⌈x⌉ ≤ ⌊x⌋ + 1 := Int.ceil_le_floor_add_one x
  have h2 : ⌊x⌋ ≤ ⌈x⌉ := Int.floor_le_ceil x
  rcases lt_or_eq_of_le h2 with h3 | h3
  · omega
  · exfalso
    apply h
    have h4 : ((⌊x⌋ : ℤ) : ℚ) ≤ x := Int.floor_le x
    have h5 : x ≤ ((⌈x⌉ : ℤ) : ℚ) := Int.le_ceil x
    rw [h3] at h4
    exact le_antisymm h5 h4

/-- C2: for duration `D > 0` and chunk size `C > 0` (and enough fuel for
the loop, `⌈D/C⌉` iterations): if `D ≤ 1.5·C` the chunker produces the
single span `[0, D)`; otherwise it produces `⌈D/C⌉` spans whose first
starts at `0` and whose last ends at `D`, every span except the last has
length `C`, the last has length `D mod C` (i.e. `D - C·⌊D/C⌋`, or `C` when
`D` is an exact multiple of `C`), consecutive spans share their endpoint
(contiguous), and every span is non-degenerate (`start < end`), so the
spans are non-overlapping and cover `[0, D)`. -/
theorem chunker_spec (D C : ℚ) (fuel : Nat) (hD : 0 < D) (hC : 0 < C)
    (hfuel : (⌈D / C⌉).toNat ≤ fuel) :
    (D ≤ C * (3 / 2) → chunkSpans D C fuel = [(0, D)]) ∧
    (C * (3 / 2) < D →
      (chunkSpans D C fuel).length = (⌈D / C⌉).toNat ∧
      ((chunkSpans D C fuel).head?.map Prod.fst) = some 0 ∧
      (∀ (i : ℕ) (p : ℚ × ℚ), i + 1 < (chunkSpans D C fuel).length →
        (chunkSpans D C fuel)[i]? = some p → p.2 - p.1 = C) ∧
      (∀ p : ℚ × ℚ, (chunkSpans D C fuel).getLast? = some p →
        p.2 = D ∧
        p.2 - p.1 = (if D / C = ((⌈D / C⌉ : ℤ) : ℚ) then C
                     else D - C * ((⌊D / C⌋ : ℤ) : ℚ))) ∧
      List.Chain' (fun p q : ℚ × ℚ => p.2 = q.1) (chunkSpans D C fuel) ∧
      (∀ p : ℚ × ℚ, p ∈ chunkSpans D C fuel → p.1 < p.2)) := by
  constructor
  · intro h15
    rw [chunkSpans, if_pos h15]
  intro h15
  have hq : 0 < D / C := div_pos hD hC
  have hceilpos : 0 < ⌈D / C⌉ := Int.ceil_pos.mpr hq
  set n : ℕ := (⌈D / C⌉).toNat with hn_def
  have hnz : ((n : ℕ) : ℤ) = ⌈D / C⌉ := Int.toNat_of_nonneg hceilpos.le
  have hnq : ((⌈D / C⌉ : ℤ) : ℚ) = (n : ℚ) := by exact_mod_cast hnz.symm
  have hCD : C < D := lt_of_lt_of_le (by linarith) h15.le
  have hn2 : 2 ≤ n := by
    have h1 : (1 : ℚ) < D / C := by
      rw [lt_div_iff₀ hC]
      linarith
    have h2 : (1 : ℤ) < ⌈D / C⌉ := Int.lt_ceil.mpr (by exact_mod_cast h1)
    omega
  have hnD : D ≤ (n : ℚ) * C := by
    have h1 : D / C ≤ ((⌈D / C⌉ : ℤ) : ℚ) := Int.le_ceil _
    rw [hnq] at h1
    calc D = D / C * C := by field_simp
    _ ≤ (n : ℚ) * C := mul_le_mul_of_nonneg_right h1 hC.le
  have hn1D : ((n : ℚ) - 1) * C < D := by
    have h1 : ((⌈D / C⌉ : ℤ) : ℚ) < D / C + 1 := Int.ceil_lt_add_one _
    rw [hnq] at h1
    have h3 : (n : ℚ) - 1 < D / C := by linarith
    calc ((n : ℚ) - 1) * C < D / C * C := mul_lt_mul_of_pos_right h3 hC
    _ = D := by field_simp
  have hsp : chunkSpans D C fuel
      = (List.range n).map
          (fun i : ℕ => ((0 : ℚ) + (i : ℚ) * C, min ((0 : ℚ) + ((i : ℚ) + 1) * C) D)) := by
    rw [chunkSpans, if_neg (not_le.mpr h15), split_audio_file,
        if_neg hD.ne', if_neg (not_le.mpr hCD)]
    exact splitAudioLoop_closed_form D C hC n fuel 0 hD
      (by rw [sub_zero]; exact_mod_cast hnz.symm) hfuel
  have hkey : ∀ i : ℕ, i + 1 < n → ((i : ℚ) + 1) * C < D := by
    intro i hi
    have h1 : ((i : ℚ) + 1) ≤ (n : ℚ) - 1 := by
      have h2 : (i : ℚ) + 2 ≤ (n : ℚ) := by exact_mod_cast Nat.succ_le_of_lt hi
      linarith
    calc ((i : ℚ) + 1) * C ≤ ((n : ℚ) - 1) * C := mul_le_mul_of_nonneg_right h1 hC.le
    _ < D := hn1D
  refine ⟨?_, ?_, ?_, ?_, ?_, ?_⟩
  · rw [hsp]
    simp
  · rw [hsp, List.head?_eq_getElem?, List.getElem?_map,
        List.getElem?_range (by omega : 0 < n)]
    simp
  · intro i p hi hp
    rw [hsp] at hi hp
    simp only [List.length_map, List.length_range] at hi
    rw [List.getElem?_map, List.getElem?_range (by omega : i < n)] at hp
    simp only [Option.map_some'] at hp
    have hp2 : p = ((0 : ℚ) + (i : ℚ) * C, min ((0 : ℚ) + ((i : ℚ) + 1) * C) D) :=
      (Option.some.inj hp).symm
    subst hp2
    have hmin : min ((0 : ℚ) + ((i : ℚ) + 1) * C) D = (0 : ℚ) + ((i : ℚ) + 1) * C := by
      apply min_eq_left
      have h6 := hkey i hi
      linarith
    simp only [hmin]
    ring
  · intro p hp
    rw [hsp, List.getLast?_eq_getElem?] at hp
    simp only [List.length_map, List.length_range] at hp
    rw [List.getElem?_map, List.getElem?_range (by omega : n - 1 < n)] at hp
    simp only [Option.map_some'] at hp
    have hp2 : p = ((0 : ℚ) + ((n - 1 : ℕ) : ℚ) * C,
        min ((0 : ℚ) + (((n - 1 : ℕ) : ℚ) + 1) * C) D) :=
      (Option.some.inj hp).symm
    subst hp2
    have hone : (1 : ℕ) ≤ n := by omega
    have hcast : ((n - 1 : ℕ) : ℚ) = (n : ℚ) - 1 := by
      push_cast [Nat.cast_sub hone]
      ring
    have hmin : min ((0 : ℚ) + (((n - 1 : ℕ) : ℚ) + 1) * C) D = D := by
      apply min_eq_right
      rw [hcast]
      calc D ≤ (n : ℚ) * C := hnD
      _ = (0 : ℚ) + ((n : ℚ) - 1 + 1) * C := by ring
    refine ⟨by rw [hmin], ?_⟩
    rw [hmin, hcast]
    by_cases hex : D / C = ((⌈D / C⌉ : ℤ) : ℚ)
    · rw [if_pos hex]
      have hDn : D = (n : ℚ) * C := (div_eq_iff hC.ne').mp (hex.trans hnq)
      rw [hDn]
      ring
    · rw [if_neg hex]
      have hfl : ⌈D / C⌉ = ⌊D / C⌋ + 1 := ceil_eq_floor_add_one_of_ne _ hex
      have hflq : ((⌊D / C⌋ : ℤ) : ℚ) = (n : ℚ) - 1 := by
        have h7 : ((n : ℕ) : ℤ) = ⌊D / C⌋ + 1 := by omega
        have h8 : (⌊D / C⌋ : ℤ) = ((n : ℕ) : ℤ) - 1 := by omega
        exact_mod_cast congrArg Int.cast h8
      rw [hflq]
      ring
  · rw [hsp, List.chain'_map]
    have hn' : n = (n - 1) + 1 := by omega
    rw [hn', List.chain'_range_succ]
    intro m hm
    have hmin : min ((0 : ℚ) + ((m : ℚ) + 1) * C) D = (0 : ℚ) + ((m : ℚ) + 1) * C := by
      apply min_eq_left
      have h9 := hkey m (by omega)
      linarith
    simp only [hmin]
    push_cast
    ring
  · intro p hp
    rw [hsp] at hp
    obtain ⟨i, hi, rfl⟩ := List.mem_map.mp hp
    rw [List.mem_range] at hi
    have h10 : (i : ℚ) ≤ (n : ℚ) - 1 := by
      have h11 : (i : ℚ) + 1 ≤ (n : ℚ) := by exact_mod_cast Nat.succ_le_of_lt hi
      linarith
    have h12 : (0 : ℚ) + (i : ℚ) * C < D := by
      calc (0 : ℚ) + (i : ℚ) * C = (i : ℚ) * C := by ring
      _ ≤ ((n : ℚ) - 1) * C := mul_le_mul_of_nonneg_right h10 hC.le
      _ < D := hn1D
    show (0 : ℚ) + (i : ℚ) * C < min ((0 : ℚ) + ((i : ℚ) + 1) * C) D
    apply lt_min
    · nlinarith
    · exact h12

/-- Witness for C2 at `D = 150`, `C = 60`, fuel `3` (the spec's own
end-to-end scenario: spans `[0,60), [60,120), [120,150)`). -/
theorem chunker_spec_witness :
    (0 : ℚ) < 150 ∧ (0 : ℚ) < 60 ∧ (⌈(150 : ℚ) / 60⌉).toNat ≤ 3 ∧
    (60 : ℚ) * (3 / 2) < 150 ∧
    (chunkSpans 150 60 3).length = (⌈(150 : ℚ) / 60⌉).toNat := by
  have h1 : (0 : ℚ) < 150 := by norm_num
  have h2 : (0 : ℚ) < 60 := by norm_num
  have h3 : (⌈(150 : ℚ) / 60⌉).toNat ≤ 3 := by
    have h : ⌈(150 : ℚ) / 60⌉ = 3 := by
      rw [Int.ceil_eq_iff]
      norm_num
    rw [h]
    norm_num
  have h4 : (60 : ℚ) * (3 / 2) < 150 := by norm_num
  exact ⟨h1, h2, h3, h4, ((chunker_spec 150 60 3 h1 h2 h3).2 h4).1⟩
